import Mathlib

/-
  Verification of the mesh-construction core of bevy_noisy_shapes.

  The development shallowly embeds the two mesh builders of the repository:
  src/plane.rs   (NoisyPlane3d / NoisyPlaneMeshBuilder::build)
  src/sphere.rs  (NoisySphere / NoisySphereMeshBuilder::{build, mesh}, sample_at)

  The f32 scalar of the source is idealized as an element of a linear ordered
  field (instantiated at ℚ for concrete evaluation and at ℝ where a norm is
  needed).  Machine indices are modelled as Nat: the source computes them in
  u32, where any overflow would be a debug-mode panic rather than a silent
  wrap, and the vertex counts under consideration are far below 2^32.
  External collaborators (the fastnoise sampler and the hexasphere base
  topology) are modelled from their contracts as stated in the design spec.
-/

namespace NoisyShapes

/-- A 3-component vector over the scalar field, modelling glam Vec3 / Vec3A
with f32 idealized as the field element. -/
structure Vec3 (α : Type) where
  x : α
  y : α
  z : α
deriving DecidableEq, Repr

/-- A 2-component vector over the scalar field, modelling glam Vec2. -/
structure Vec2 (α : Type) where
  x : α
  y : α
deriving DecidableEq, Repr

variable {α : Type} [LinearOrderedField α] [FloorRing α]

/-- Componentwise subtraction, modelling glam Vec3A subtraction used in
sample_at (point - offset). -/
def Vec3.sub (a b : Vec3 α) : Vec3 α :=
  ⟨a.x - b.x, a.y - b.y, a.z - b.z⟩

/-- Squared Euclidean norm of a 3-vector; the source's point.length() is
the square root of this. -/
def normSq (v : Vec3 α) : α :=
  v.x * v.x + v.y * v.y + v.z * v.z

/-- Modelled from the spec: the external fastnoise NoiseSampler contract —
pure functions sample2d(x, y) and sample3d(p), with a None variant that
always returns 0.  The fastnoise crate itself is not part of this
repository's sources. -/
inductive NoiseSampler (α : Type) where
  | None : NoiseSampler α
  | Fractal (f2 : α → α → α) (f3 : Vec3 α → α) : NoiseSampler α

/-- The 2-D sampling operation of the noise contract. -/
def NoiseSampler.sample2d : NoiseSampler α → α → α → α
  | .None, _, _ => 0
  | .Fractal f _, a, b => f a b

/-- The 3-D sampling operation of the noise contract. -/
def NoiseSampler.sample3d : NoiseSampler α → Vec3 α → α
  | .None, _ => 0
  | .Fractal _ g, p => g p

/-- Rust's floating-point remainder, used by the source in
`(py * 360.0) % 360.0`: `a % b = a - b * trunc(a / b)`, truncating the
quotient toward zero, so the result carries the sign of the dividend. -/
def rustRem (a b : α) : α :=
  if 0 ≤ a / b then a - b * (⌊a / b⌋ : α) else a - b * (⌈a / b⌉ : α)

/-- The output mesh buffers (positions, UVs, optional vertex colors,
triangle indices).  A color entry is recorded by its HSL hue, the value the
source feeds to Color::hsl(hue, 1.0, 0.5); the HSL→sRGBA conversion done by
bevy is an external one-entry-to-one-entry map and is not part of this
repository. -/
structure MeshData (α : Type) where
  positions : List (Vec3 α)
  uvs : List (Vec2 α)
  colors : Option (List α)
  indices : List Nat

/-! ### Plane builder (src/plane.rs) -/

/-- The NoisyPlane3d shape: a normal direction and 2-D half extents. -/
structure NoisyPlane3d (α : Type) where
  normal : Vec3 α
  half_size : Vec2 α
deriving DecidableEq

/-- Default NoisyPlane3d: normal +Y, half size 0.5 on each axis. -/
def NoisyPlane3d.default : NoisyPlane3d α :=
  ⟨⟨0, 1, 0⟩, ⟨1 / 2, 1 / 2⟩⟩

/-- The plane mesh builder configuration. -/
structure NoisyPlaneMeshBuilder (α : Type) where
  plane : NoisyPlane3d α
  subdivisions : Nat
  sampler : NoiseSampler α
  offset : Vec2 α
  vertex_colors : Bool

/-- Default NoisyPlaneMeshBuilder: default plane, 0 subdivisions, no
sampler, zero offset, no vertex colors. -/
def NoisyPlaneMeshBuilder.default : NoisyPlaneMeshBuilder α :=
  ⟨NoisyPlane3d.default, 0, .None, ⟨0, 0⟩, false⟩

/-- The parametric grid coordinate of the plane build:
`planeT n i = i / (n - 1)` embeds `x as f32 / (x_vertex_count - 1) as f32`
(the subtraction happens on the machine integer, hence Nat subtraction
before the cast). -/
def planeT (n i : Nat) : α :=
  (i : α) / ((n - 1 : Nat) : α)

/-- The noise displacement of grid vertex (x, z):
`py = sampler.sample2d(offset.x + tx * size.x, offset.y + tz * size.y)`
with `size = half_size * 2`. -/
def planePy (b : NoisyPlaneMeshBuilder α) (z x : Nat) : α :=
  let n := b.subdivisions + 2
  b.sampler.sample2d
    (b.offset.x + planeT n x * (b.plane.half_size.x * 2))
    (b.offset.y + planeT n z * (b.plane.half_size.y * 2))

/-- The pre-rotation local position of grid vertex (x, z):
`px = (-0.5 + tx) * size.x`, `pz = (-0.5 + tz) * size.y`, `py` the noise
displacement. -/
def planeLocalPos (b : NoisyPlaneMeshBuilder α) (z x : Nat) : Vec3 α :=
  let n := b.subdivisions + 2
  ⟨(-(1 / 2) + planeT n x) * (b.plane.half_size.x * 2),
   planePy b z x,
   (-(1 / 2) + planeT n z) * (b.plane.half_size.y * 2)⟩

/-- The six indices the build pushes for grid cell (x, z), with
`quad = z * n + x`: the triangles (quad+n+1, quad+1, quad+n) and
(quad, quad+n, quad+1). -/
def planeCell (n z x : Nat) : List Nat :=
  let quad := z * n + x
  [quad + n + 1, quad + 1, quad + n, quad, quad + n, quad + 1]

/-- The plane build (NoisyPlaneMeshBuilder::build).  `rotArc` embeds the
external glam operation `Quat::from_rotation_arc(from, to)` applied to a
vector: the source rotates each local position by
`Quat::from_rotation_arc(Vec3::Y, *self.plane.normal)`. -/
def planeBuild (rotArc : Vec3 α → Vec3 α → Vec3 α → Vec3 α)
    (b : NoisyPlaneMeshBuilder α) : MeshData α :=
  let n := b.subdivisions + 2
  { positions := (List.range n).flatMap fun z => (List.range n).map fun x =>
      rotArc ⟨0, 1, 0⟩ b.plane.normal (planeLocalPos b z x)
    uvs := (List.range n).flatMap fun z => (List.range n).map fun x =>
      ⟨planeT n x, planeT n z⟩
    colors := if b.vertex_colors then
        some ((List.range n).flatMap fun z => (List.range n).map fun x =>
          rustRem (planePy b z x * 360) 360)
      else none
    indices := (List.range (n - 1)).flatMap fun z =>
      (List.range (n - 1)).flatMap fun x => planeCell n z x }

/-- Meshable for NoisyPlane3d: keeps the shape, defaults every other field. -/
def NoisyPlane3d.mesh (p : NoisyPlane3d α) : NoisyPlaneMeshBuilder α :=
  { NoisyPlaneMeshBuilder.default with plane := p }

/-! ### Sphere builder (src/sphere.rs) -/

/-- The NoisySphere shape: a radius. -/
structure NoisySphere (α : Type) where
  radius : α
deriving DecidableEq

/-- Default NoisySphere: radius 0.5. -/
def NoisySphere.default : NoisySphere α :=
  ⟨1 / 2⟩

/-- The sphere topology kind: cube-derived or icosahedron-derived. -/
inductive NoisySphereKind where
  | Cubed (subdivisions : Nat)
  | Ico (subdivisions : Nat)
deriving DecidableEq, Repr

/-- Default NoisySphereKind: Cubed with 5 subdivisions. -/
def NoisySphereKind.default : NoisySphereKind :=
  .Cubed 5

/-- The sphere mesh builder configuration. -/
structure NoisySphereMeshBuilder (α : Type) where
  kind : NoisySphereKind
  sampler : NoiseSampler α
  sphere : NoisySphere α
  offset : Vec3 α
  vertex_colors : Bool

/-- Default NoisySphereMeshBuilder: Cubed{5}, no sampler, default sphere,
zero offset, no vertex colors. -/
def NoisySphereMeshBuilder.default : NoisySphereMeshBuilder α :=
  ⟨.default, .None, .default, ⟨0, 0, 0⟩, false⟩

/-- Modelled from the spec: the external hexasphere Subdivided base
topology — an ordered list of unit raw points, a parallel UV-data list, a
fixed per-face index count (indices_per_main_triangle), and a per-face
triangle index list that get_indices appends for each base face.  The
hexasphere crate is not part of this repository's sources. -/
structure BaseTopology (α : Type) where
  raw_points : List (Vec3 α)
  raw_data : List (Vec2 α)
  indices_per_main_triangle : Nat
  face_indices : Nat → List Nat

/-- The displacement of one raw point (fn sample_at in src/sphere.rs):
`point * radius * (1.0 + noise.sample3d(point - offset))`, componentwise. -/
def sample_at (point : Vec3 α) (noise : NoiseSampler α) (offset : Vec3 α)
    (radius : α) : Vec3 α :=
  let s := noise.sample3d (point.sub offset)
  ⟨point.x * radius * (1 + s), point.y * radius * (1 + s),
   point.z * radius * (1 + s)⟩

/-- The shared sphere mesh assembly (NoisySphereMeshBuilder::mesh).  `len3`
embeds the external glam Vec3A::length applied to the displaced point when
vertex colors are requested. -/
def sphereMesh (len3 : Vec3 α → α) (b : NoisySphereMeshBuilder α)
    (base : BaseTopology α) (faces : Nat) : MeshData α :=
  let points := base.raw_points.map fun p =>
    sample_at p b.sampler b.offset b.sphere.radius
  { positions := points
    uvs := base.raw_data
    colors := if b.vertex_colors then
        some (points.map fun p => rustRem (len3 p * 360) 360)
      else none
    indices := (List.range faces).flatMap base.face_indices }

/-- The number of base faces iterated by the build: 12 for the cube-derived
topology, 20 for the icosahedron-derived one. -/
def sphereFaces : NoisySphereKind → Nat
  | .Cubed _ => 12
  | .Ico _ => 20

/-- The base topology chosen by the build's kind dispatch:
CubeSphere::new(subdivisions, uv_transform) for Cubed,
IcoSphere::new(subdivisions, uv_transform) for Ico; the external
constructors are taken as parameters. -/
def sphereBase (mkCube mkIco : Nat → BaseTopology α) :
    NoisySphereKind → BaseTopology α
  | .Cubed s => mkCube s
  | .Ico s => mkIco s

/-- The sphere build (NoisySphereMeshBuilder::build): dispatch on the kind,
then assemble through sphereMesh. -/
def sphereBuild (mkCube mkIco : Nat → BaseTopology α) (len3 : Vec3 α → α)
    (b : NoisySphereMeshBuilder α) : MeshData α :=
  sphereMesh len3 b (sphereBase mkCube mkIco b.kind) (sphereFaces b.kind)

/-- Meshable for NoisySphere: keeps the shape, defaults every other field. -/
def NoisySphere.mesh (s : NoisySphere α) : NoisySphereMeshBuilder α :=
  { NoisySphereMeshBuilder.default with sphere := s }

/-! ### Helper lemmas on concatenated buffers -/

/-- Length of a buffer assembled by concatenating, over 0..m, blocks of a
common length k. -/
theorem length_flatMap_range {β : Type} (g : Nat → List β) (k : Nat) :
    ∀ m : Nat, (∀ a, a < m → (g a).length = k) →
      ((List.range m).flatMap g).length = m * k := by
  intro m
  induction m with
  | zero => intro _; simp
  | succ m ih =>
    intro h
    rw [List.range_succ, List.flatMap_append, List.length_append,
      ih fun a ha => h a (Nat.lt_succ_of_lt ha)]
    simp [h m (Nat.lt_succ_self m), Nat.succ_mul]

/-- Element lookup inside a buffer assembled by concatenating, over 0..m,
blocks of a common length k: position i*k + j reads entry j of block i. -/
theorem getElem?_flatMap_range {β : Type} (g : Nat → List β) (k : Nat) :
    ∀ m i j : Nat, (∀ a, a < m → (g a).length = k) → i < m → j < k →
      ((List.range m).flatMap g)[i * k + j]? = (g i)[j]? := by
  intro m
  induction m with
  | zero => intro i j _ hi _; omega
  | succ m ih =>
    intro i j hlen hi hj
    rw [List.range_succ, List.flatMap_append]
    have hL : ((List.range m).flatMap g).length = m * k :=
      length_flatMap_range g k m fun a ha => hlen a (Nat.lt_succ_of_lt ha)
    rcases Nat.lt_or_ge i m with h | h
    · rw [List.getElem?_append_left]
      · exact ih i j (fun a ha => hlen a (Nat.lt_succ_of_lt ha)) h hj
      · rw [hL]
        calc i * k + j < i * k + k := by omega
          _ = (i + 1) * k := by ring
          _ ≤ m * k := Nat.mul_le_mul_right k h
    · have hieq : i = m := by omega
      subst hieq
      rw [List.getElem?_append_right (by rw [hL]; omega), hL]
      simp

/-- Element lookup in a square grid buffer: the row-major position
z*n + x of the doubly nested generation reads the vertex made from (z, x). -/
theorem getElem?_grid {β : Type} (f : Nat → Nat → β) (n z x : Nat)
    (hz : z < n) (hx : x < n) :
    ((List.range n).flatMap fun i => (List.range n).map (f i))[z * n + x]? =
      some (f z x) := by
  rw [getElem?_flatMap_range _ n n z x (fun a _ => by simp) hz hx,
    List.getElem?_map, List.getElem?_range hx]
  rfl

/-- A length-k window of a list agreeing entrywise with E equals E. -/
theorem slice_eq_of_getElem? {β : Type} (L E : List β) (d k : Nat)
    (hk : E.length = k) (h : ∀ r, r < k → L[d + r]? = E[r]?) :
    (L.drop d).take k = E := by
  apply List.ext_getElem?
  intro r
  rcases Nat.lt_or_ge r k with hr | hr
  · rw [List.getElem?_take, if_pos hr, List.getElem?_drop, h r hr]
  · rw [List.getElem?_eq_none (l := E) (by omega),
      List.getElem?_eq_none (by simpa using Or.inl hr)]

/-- Membership in a buffer assembled by concatenation over 0..m comes from
membership in one of the blocks. -/
theorem mem_flatMap_range {β : Type} (g : Nat → List β) (m : Nat) (v : β)
    (hv : v ∈ (List.range m).flatMap g) : ∃ a, a < m ∧ v ∈ g a := by
  rcases List.mem_flatMap.mp hv with ⟨a, ha, hmem⟩
  exact ⟨a, List.mem_range.mp ha, hmem⟩

/-! ### Helper lemmas on the Rust float remainder -/

/-- The Rust remainder by a positive modulus lies strictly between -b and b. -/
theorem rustRem_bounds (a b : α) (hb : 0 < b) :
    -b < rustRem a b ∧ rustRem a b < b := by
  have hbne : b ≠ 0 := ne_of_gt hb
  unfold rustRem
  split
  · have h1 : a - b * (⌊a / b⌋ : α) = b * Int.fract (a / b) := by
      rw [Int.fract, mul_sub, mul_comm b (a / b), div_mul_cancel₀ a hbne]
    rw [h1]
    constructor
    · have : (0 : α) ≤ b * Int.fract (a / b) :=
        mul_nonneg hb.le (Int.fract_nonneg _)
      linarith
    · calc b * Int.fract (a / b) < b * 1 :=
          mul_lt_mul_of_pos_left (Int.fract_lt_one _) hb
        _ = b := mul_one b
  · have h1 : a - b * (⌈a / b⌉ : α) = b * (a / b - (⌈a / b⌉ : α)) := by
      rw [mul_sub, mul_comm b (a / b), div_mul_cancel₀ a hbne]
    rw [h1]
    have hle : a / b - (⌈a / b⌉ : α) ≤ 0 := by
      have := Int.le_ceil (a / b)
      linarith
    have hgt : -1 < a / b - (⌈a / b⌉ : α) := by
      have := Int.ceil_lt_add_one (a / b)
      linarith
    constructor
    · calc -b = b * (-1) := by ring
        _ < b * (a / b - (⌈a / b⌉ : α)) := mul_lt_mul_of_pos_left hgt hb
    · have : b * (a / b - (⌈a / b⌉ : α)) ≤ 0 :=
        mul_nonpos_of_nonneg_of_nonpos hb.le hle
      linarith

/-- The Rust remainder of a nonnegative dividend by a positive modulus is
nonnegative. -/
theorem rustRem_nonneg (a b : α) (ha : 0 ≤ a) (hb : 0 < b) :
    0 ≤ rustRem a b := by
  have hbne : b ≠ 0 := ne_of_gt hb
  unfold rustRem
  rw [if_pos (div_nonneg ha hb.le)]
  have h1 : a - b * (⌊a / b⌋ : α) = b * Int.fract (a / b) := by
    rw [Int.fract, mul_sub, mul_comm b (a / b), div_mul_cancel₀ a hbne]
  rw [h1]
  exact mul_nonneg hb.le (Int.fract_nonneg _)

/-! ### Unfolding lemmas for the plane build -/

/-- The positions buffer generated by the nested z/x loops of the build. -/
theorem planeBuild_positions (rotArc : Vec3 α → Vec3 α → Vec3 α → Vec3 α)
    (b : NoisyPlaneMeshBuilder α) :
    (planeBuild rotArc b).positions =
      (List.range (b.subdivisions + 2)).flatMap fun z =>
        (List.range (b.subdivisions + 2)).map fun x =>
          rotArc ⟨0, 1, 0⟩ b.plane.normal (planeLocalPos b z x) := rfl

/-- The UV buffer generated by the nested z/x loops of the build. -/
theorem planeBuild_uvs (rotArc : Vec3 α → Vec3 α → Vec3 α → Vec3 α)
    (b : NoisyPlaneMeshBuilder α) :
    (planeBuild rotArc b).uvs =
      (List.range (b.subdivisions + 2)).flatMap fun z =>
        (List.range (b.subdivisions + 2)).map fun x =>
          ⟨planeT (b.subdivisions + 2) x, planeT (b.subdivisions + 2) z⟩ := rfl

/-- The color buffer of the build: present exactly when the toggle is set. -/
theorem planeBuild_colors (rotArc : Vec3 α → Vec3 α → Vec3 α → Vec3 α)
    (b : NoisyPlaneMeshBuilder α) :
    (planeBuild rotArc b).colors =
      (if b.vertex_colors then
        some ((List.range (b.subdivisions + 2)).flatMap fun z =>
          (List.range (b.subdivisions + 2)).map fun x =>
            rustRem (planePy b z x * 360) 360)
      else none) := rfl

/-- The index buffer generated by the nested cell loops of the build. -/
theorem planeBuild_indices (rotArc : Vec3 α → Vec3 α → Vec3 α → Vec3 α)
    (b : NoisyPlaneMeshBuilder α) :
    (planeBuild rotArc b).indices =
      (List.range (b.subdivisions + 1)).flatMap fun z =>
        (List.range (b.subdivisions + 1)).flatMap fun x =>
          planeCell (b.subdivisions + 2) z x := rfl

/-- Lookup of one entry of one cell inside the plane index buffer. -/
theorem planeIndices_getElem (n z x r : Nat) (hz : z < n - 1)
    (hx : x < n - 1) (hr : r < 6) :
    ((List.range (n - 1)).flatMap fun a =>
      (List.range (n - 1)).flatMap fun c =>
        planeCell n a c)[6 * (z * (n - 1) + x) + r]? =
      (planeCell n z x)[r]? := by
  have harith : 6 * (z * (n - 1) + x) + r = z * ((n - 1) * 6) + (x * 6 + r) := by
    ring
  rw [harith,
    getElem?_flatMap_range _ ((n - 1) * 6) (n - 1) z (x * 6 + r)
      (fun a _ => length_flatMap_range _ 6 (n - 1) fun c _ => by
        simp [planeCell]) hz
      (by omega)]
  exact getElem?_flatMap_range _ 6 (n - 1) x r (fun c _ => by simp [planeCell]) hx hr

/-- C1: for every subdivision count s ≥ 0 the plane build produces exactly
(s+2)^2 vertex positions; the index buffer totals 6*(s+1)^2 entries, each
one < (s+2)^2; and the six entries of grid cell (x, z) — starting at
position 6*(z*(s+1)+x), i.e. in cell order — are the two triangles
(quad+n+1, quad+1, quad+n) and (quad, quad+n, quad+1) with quad = z*n + x
and n = s + 2. -/
theorem plane_vertex_index_counts
    (rotArc : Vec3 α → Vec3 α → Vec3 α → Vec3 α)
    (b : NoisyPlaneMeshBuilder α) :
    (planeBuild rotArc b).positions.length = (b.subdivisions + 2) ^ 2 ∧
    (planeBuild rotArc b).indices.length = 6 * (b.subdivisions + 1) ^ 2 ∧
    (∀ i ∈ (planeBuild rotArc b).indices, i < (b.subdivisions + 2) ^ 2) ∧
    (∀ z x, z < b.subdivisions + 1 → x < b.subdivisions + 1 →
      (((planeBuild rotArc b).indices.drop
          (6 * (z * (b.subdivisions + 1) + x))).take 6) =
        [z * (b.subdivisions + 2) + x + (b.subdivisions + 2) + 1,
         z * (b.subdivisions + 2) + x + 1,
         z * (b.subdivisions + 2) + x + (b.subdivisions + 2),
         z * (b.subdivisions + 2) + x,
         z * (b.subdivisions + 2) + x + (b.subdivisions + 2),
         z * (b.subdivisions + 2) + x + 1]) := by
  refine ⟨?_, ?_, ?_, ?_⟩
  · rw [planeBuild_positions,
      length_flatMap_range _ (b.subdivisions + 2) (b.subdivisions + 2)
        fun a _ => by simp]
    ring
  · rw [planeBuild_indices,
      length_flatMap_range _ ((b.subdivisions + 1) * 6) (b.subdivisions + 1)
        fun a _ => length_flatMap_range _ 6 (b.subdivisions + 1) fun c _ => by
          simp [planeCell]]
    ring
  · intro i hi
    rw [planeBuild_indices] at hi
    obtain ⟨z, hz, hi⟩ := mem_flatMap_range _ _ _ hi
    obtain ⟨x, hx, hi⟩ := mem_flatMap_range _ _ _ hi
    have hz' : z ≤ b.subdivisions := by omega
    have hx' : x ≤ b.subdivisions := by omega
    have hm : z * (b.subdivisions + 2) ≤ b.subdivisions * (b.subdivisions + 2) :=
      Nat.mul_le_mul_right _ hz'
    have hsq : (b.subdivisions + 2) ^ 2 =
        b.subdivisions * (b.subdivisions + 2) + 2 * b.subdivisions + 4 := by
      ring
    simp only [planeCell, List.mem_cons, List.not_mem_nil, or_false] at hi
    rcases hi with h | h | h | h | h | h <;> subst h <;> linarith
  · intro z x hz hx
    rw [planeBuild_indices]
    refine slice_eq_of_getElem? _ _ _ 6 rfl fun r hr => ?_
    have h := planeIndices_getElem (b.subdivisions + 2) z x r
      (by omega) (by omega) hr
    simpa [planeCell] using h

/-- Witness for C1 at s = 0 over ℚ: the minimal plane yields the 1-quad
index slice [3, 1, 2, 0, 2, 1]. -/
theorem plane_vertex_index_counts_witness :
    (0 : Nat) < 0 + 1 ∧
    (((planeBuild (fun _ _ v => v)
        (NoisyPlaneMeshBuilder.default : NoisyPlaneMeshBuilder ℚ)).indices.drop
          (6 * (0 * (0 + 1) + 0))).take 6) = [3, 1, 2, 0, 2, 1] := by
  constructor
  · decide
  · have h := (plane_vertex_index_counts (fun _ _ v => v)
      (NoisyPlaneMeshBuilder.default : NoisyPlaneMeshBuilder ℚ)).2.2.2
      0 0 (by decide) (by decide)
    simpa using h

omit [FloorRing α] in
/-- The parametric coordinate is nonnegative. -/
theorem planeT_nonneg (n i : Nat) : (0 : α) ≤ planeT n i :=
  div_nonneg (Nat.cast_nonneg i) (Nat.cast_nonneg (n - 1))

omit [FloorRing α] in
/-- The parametric coordinate is at most one on the grid. -/
theorem planeT_le_one (n i : Nat) (h2 : 2 ≤ n) (h : i ≤ n - 1) :
    planeT n i ≤ (1 : α) := by
  have hpos : (0 : α) < ((n - 1 : Nat) : α) := by
    exact_mod_cast Nat.pos_of_ne_zero (by omega)
  unfold planeT
  rw [div_le_one hpos]
  exact_mod_cast h

omit [FloorRing α] in
/-- The parametric coordinate vanishes at grid index 0. -/
theorem planeT_zero (n : Nat) : planeT n 0 = (0 : α) := by
  simp [planeT]

omit [FloorRing α] in
/-- The parametric coordinate is one at the far grid index. -/
theorem planeT_last (n : Nat) (h2 : 2 ≤ n) : planeT n (n - 1) = (1 : α) := by
  have hpos : (0 : α) < ((n - 1 : Nat) : α) := by
    exact_mod_cast Nat.pos_of_ne_zero (by omega)
  unfold planeT
  exact div_self hpos.ne'

/-- C3: the emitted position of grid vertex (x, z) is the rotation mapping
+Y to the configured normal, applied to (px, py, pz) where
px = (tx - 1/2) * width, pz = (tz - 1/2) * height, width/height twice the
half size, py = sample2d(offset.x + tx*width, offset.y + tz*height), and
tx = x/(n-1), tz = z/(n-1). -/
theorem plane_position_formula (rotArc : Vec3 α → Vec3 α → Vec3 α → Vec3 α)
    (b : NoisyPlaneMeshBuilder α) (z x : Nat)
    (hz : z < b.subdivisions + 2) (hx : x < b.subdivisions + 2) :
    (planeBuild rotArc b).positions[z * (b.subdivisions + 2) + x]? =
      some (rotArc ⟨0, 1, 0⟩ b.plane.normal
        ⟨(planeT (b.subdivisions + 2) x - 1 / 2) * (2 * b.plane.half_size.x),
         b.sampler.sample2d
           (b.offset.x +
             planeT (b.subdivisions + 2) x * (2 * b.plane.half_size.x))
           (b.offset.y +
             planeT (b.subdivisions + 2) z * (2 * b.plane.half_size.y)),
         (planeT (b.subdivisions + 2) z - 1 / 2) * (2 * b.plane.half_size.y)⟩) := by
  rw [planeBuild_positions, getElem?_grid _ _ _ _ hz hx]
  have e2 : ∀ c : α, c * 2 = 2 * c := fun c => mul_comm c 2
  simp only [planeLocalPos, planePy, e2, neg_add_eq_sub]

/-- Witness for C3 at s = 0, vertex (0, 0), over ℚ with the identity in
place of the external rotation. -/
theorem plane_position_formula_witness :
    (0 : Nat) < 0 + 2 ∧
    (planeBuild (fun _ _ v => v)
        (NoisyPlaneMeshBuilder.default : NoisyPlaneMeshBuilder ℚ)).positions[
          (0 : Nat)]? =
      some ⟨(planeT 2 0 - 1 / 2) * (2 * (1 / 2 : ℚ)),
        (NoiseSampler.None : NoiseSampler ℚ).sample2d
          (0 + planeT 2 0 * (2 * (1 / 2 : ℚ)))
          (0 + planeT 2 0 * (2 * (1 / 2 : ℚ))),
        (planeT 2 0 - 1 / 2) * (2 * (1 / 2 : ℚ))⟩ := by
  refine ⟨by decide, ?_⟩
  have h := plane_position_formula (fun _ _ v => v)
    (NoisyPlaneMeshBuilder.default : NoisyPlaneMeshBuilder ℚ) 0 0
    (by decide) (by decide)
  simpa [NoisyPlaneMeshBuilder.default, NoisyPlane3d.default] using h

/-- C8: every emitted UV equals (tx, tz) for its grid vertex, lies in
[0,1]² inclusive, is (0,0) at grid corner (0,0) and (1,1) at the opposite
corner, and the UV buffer is unaffected by the normal, the offset, the
sampler and the color toggle. -/
theorem plane_uv_bounds (rotArc : Vec3 α → Vec3 α → Vec3 α → Vec3 α)
    (b : NoisyPlaneMeshBuilder α) :
    (∀ z x, z < b.subdivisions + 2 → x < b.subdivisions + 2 →
      (planeBuild rotArc b).uvs[z * (b.subdivisions + 2) + x]? =
        some ⟨planeT (b.subdivisions + 2) x, planeT (b.subdivisions + 2) z⟩) ∧
    (∀ uv ∈ (planeBuild rotArc b).uvs,
      0 ≤ uv.x ∧ uv.x ≤ 1 ∧ 0 ≤ uv.y ∧ uv.y ≤ 1) ∧
    (planeBuild rotArc b).uvs[(0 : Nat)]? = some ⟨0, 0⟩ ∧
    (planeBuild rotArc b).uvs[
      (b.subdivisions + 1) * (b.subdivisions + 2) + (b.subdivisions + 1)]? =
      some ⟨1, 1⟩ ∧
    (∀ (rotArc' : Vec3 α → Vec3 α → Vec3 α → Vec3 α)
      (b' : NoisyPlaneMeshBuilder α), b'.subdivisions = b.subdivisions →
      (planeBuild rotArc' b').uvs = (planeBuild rotArc b).uvs) := by
  have huv : ∀ z x, z < b.subdivisions + 2 → x < b.subdivisions + 2 →
      (planeBuild rotArc b).uvs[z * (b.subdivisions + 2) + x]? =
        some ⟨planeT (b.subdivisions + 2) x, planeT (b.subdivisions + 2) z⟩ := by
    intro z x hz hx
    rw [planeBuild_uvs, getElem?_grid _ _ _ _ hz hx]
  refine ⟨huv, ?_, ?_, ?_, ?_⟩
  · intro uv hm
    rw [planeBuild_uvs] at hm
    obtain ⟨z, hz, hm⟩ := mem_flatMap_range _ _ _ hm
    obtain ⟨x, hx, rfl⟩ := List.mem_map.mp hm
    have hx' : x < b.subdivisions + 2 := List.mem_range.mp hx
    exact ⟨planeT_nonneg _ _,
      planeT_le_one _ _ (by omega) (by omega),
      planeT_nonneg _ _,
      planeT_le_one _ _ (by omega) (by omega)⟩
  · have h := huv 0 0 (by omega) (by omega)
    simpa [planeT_zero] using h
  · have h := huv (b.subdivisions + 1) (b.subdivisions + 1)
      (by omega) (by omega)
    have hlast : planeT (b.subdivisions + 2) (b.subdivisions + 1) = (1 : α) := by
      have := planeT_last (α := α) (b.subdivisions + 2) (by omega)
      simpa using this
    rw [hlast] at h
    exact h
  · intro rotArc' b' h
    rw [planeBuild_uvs, planeBuild_uvs, h]

/-- Witness for C8 at s = 0 over ℚ. -/
theorem plane_uv_bounds_witness :
    (0 : Nat) < 0 + 2 ∧
    (planeBuild (fun _ _ v => v)
      (NoisyPlaneMeshBuilder.default : NoisyPlaneMeshBuilder ℚ)).uvs[
        (0 : Nat)]? = some ⟨0, 0⟩ := by
  refine ⟨by decide, ?_⟩
  exact (plane_uv_bounds (fun _ _ v => v)
    (NoisyPlaneMeshBuilder.default : NoisyPlaneMeshBuilder ℚ)).2.2.1

/-- C9: the plane build is deterministic — two builds from identical
configurations (the sampler being a pure function of its arguments by the
sampler contract) produce identical position buffers. -/
theorem plane_build_deterministic
    (rotArc : Vec3 α → Vec3 α → Vec3 α → Vec3 α)
    (b₁ b₂ : NoisyPlaneMeshBuilder α) (h : b₁ = b₂) :
    (planeBuild rotArc b₁).positions = (planeBuild rotArc b₂).positions := by
  rw [h]

/-- Witness for C9: two builds of the default configuration over ℚ agree. -/
theorem plane_build_deterministic_witness :
    (NoisyPlaneMeshBuilder.default : NoisyPlaneMeshBuilder ℚ) =
      NoisyPlaneMeshBuilder.default ∧
    (planeBuild (fun _ _ v => v)
        (NoisyPlaneMeshBuilder.default : NoisyPlaneMeshBuilder ℚ)).positions =
      (planeBuild (fun _ _ v => v)
        (NoisyPlaneMeshBuilder.default : NoisyPlaneMeshBuilder ℚ)).positions :=
  ⟨rfl, plane_build_deterministic (fun _ _ v => v) _ _ rfl⟩

/-! ### Unfolding lemmas for the sphere build -/

/-- The sphere build dispatches the kind into the shared mesh assembly. -/
theorem sphereBuild_eq (mkCube mkIco : Nat → BaseTopology α)
    (len3 : Vec3 α → α) (b : NoisySphereMeshBuilder α) :
    sphereBuild mkCube mkIco len3 b =
      sphereMesh len3 b (sphereBase mkCube mkIco b.kind)
        (sphereFaces b.kind) := rfl

/-- The positions buffer of the sphere mesh assembly. -/
theorem sphereMesh_positions (len3 : Vec3 α → α)
    (b : NoisySphereMeshBuilder α) (base : BaseTopology α) (faces : Nat) :
    (sphereMesh len3 b base faces).positions =
      base.raw_points.map fun p =>
        sample_at p b.sampler b.offset b.sphere.radius := rfl

/-- The color buffer of the sphere mesh assembly. -/
theorem sphereMesh_colors (len3 : Vec3 α → α)
    (b : NoisySphereMeshBuilder α) (base : BaseTopology α) (faces : Nat) :
    (sphereMesh len3 b base faces).colors =
      (if b.vertex_colors then
        some ((base.raw_points.map fun p =>
          sample_at p b.sampler b.offset b.sphere.radius).map fun p =>
            rustRem (len3 p * 360) 360)
      else none) := rfl

/-- The index buffer of the sphere mesh assembly. -/
theorem sphereMesh_indices (len3 : Vec3 α → α)
    (b : NoisySphereMeshBuilder α) (base : BaseTopology α) (faces : Nat) :
    (sphereMesh len3 b base faces).indices =
      (List.range faces).flatMap base.face_indices := rfl

/-- C2: the displaced position of a unit raw point has distance from the
origin equal to radius * (1 + sample), where sample is the noise value at
the point minus the configured offset (deviation policy k = 1), whenever
that value is nonnegative (radius ≥ 0 and sample ≥ -1 in the intended
range). -/
theorem sphere_displaced_distance (noise : NoiseSampler ℝ)
    (offset p : Vec3 ℝ) (radius : ℝ)
    (hp : Real.sqrt (normSq p) = 1)
    (hnn : 0 ≤ radius * (1 + noise.sample3d (p.sub offset))) :
    Real.sqrt (normSq (sample_at p noise offset radius)) =
      radius * (1 + noise.sample3d (p.sub offset)) := by
  have h1 : normSq (sample_at p noise offset radius) =
      (radius * (1 + noise.sample3d (p.sub offset))) ^ 2 * normSq p := by
    simp only [sample_at, normSq]
    ring
  rw [h1, Real.sqrt_mul (sq_nonneg _), Real.sqrt_sq_eq_abs, hp, mul_one,
    abs_of_nonneg hnn]

/-- Witness for C2 at the unit point (1,0,0), no sampler, radius 2. -/
theorem sphere_displaced_distance_witness :
    Real.sqrt (normSq (⟨1, 0, 0⟩ : Vec3 ℝ)) = 1 ∧
    Real.sqrt (normSq (sample_at (⟨1, 0, 0⟩ : Vec3 ℝ) .None ⟨0, 0, 0⟩ 2)) =
      2 * (1 + NoiseSampler.sample3d .None
        ((Vec3.mk (1 : ℝ) 0 0).sub ⟨0, 0, 0⟩)) := by
  have hp : Real.sqrt (normSq (⟨1, 0, 0⟩ : Vec3 ℝ)) = 1 := by
    have h : normSq (⟨1, 0, 0⟩ : Vec3 ℝ) = 1 := by norm_num [normSq]
    rw [h, Real.sqrt_one]
  refine ⟨hp, sphere_displaced_distance .None ⟨0, 0, 0⟩ ⟨1, 0, 0⟩ 2 hp ?_⟩
  simp [NoiseSampler.sample3d]

/-- C4: the sphere index buffer is the concatenation of the faces'
triangle lists in face-iteration order 0..faces, with 12 faces for the
Cubed kind and 20 for Ico; under the base-topology contract (each face
appends indices_per_main_triangle indices, all referencing raw points),
its length is faces * indices_per_main_triangle and every index is
< raw_points.length. -/
theorem sphere_index_assembly (mkCube mkIco : Nat → BaseTopology α)
    (len3 : Vec3 α → α) (b : NoisySphereMeshBuilder α)
    (hlen : ∀ i, i < sphereFaces b.kind →
      ((sphereBase mkCube mkIco b.kind).face_indices i).length =
        (sphereBase mkCube mkIco b.kind).indices_per_main_triangle)
    (hbnd : ∀ i, i < sphereFaces b.kind →
      ∀ j ∈ (sphereBase mkCube mkIco b.kind).face_indices i,
        j < (sphereBase mkCube mkIco b.kind).raw_points.length) :
    (∀ s, sphereFaces (.Cubed s) = 12 ∧ sphereFaces (.Ico s) = 20) ∧
    (sphereBuild mkCube mkIco len3 b).indices =
      (List.range (sphereFaces b.kind)).flatMap
        (sphereBase mkCube mkIco b.kind).face_indices ∧
    (sphereBuild mkCube mkIco len3 b).indices.length =
      sphereFaces b.kind *
        (sphereBase mkCube mkIco b.kind).indices_per_main_triangle ∧
    ∀ j ∈ (sphereBuild mkCube mkIco len3 b).indices,
      j < (sphereBase mkCube mkIco b.kind).raw_points.length := by
  refine ⟨fun s => ⟨rfl, rfl⟩, rfl, ?_, ?_⟩
  · rw [sphereBuild_eq, sphereMesh_indices]
    exact length_flatMap_range _ _ _ hlen
  · intro j hj
    rw [sphereBuild_eq, sphereMesh_indices] at hj
    obtain ⟨a, ha, hj⟩ := mem_flatMap_range _ _ _ hj
    exact hbnd a ha j hj

/-- Witness for C4: a one-point base topology whose 12 faces each append
the triangle [0, 0, 0]. -/
theorem sphere_index_assembly_witness :
    (sphereBuild (fun _ => (⟨[⟨1, 0, 0⟩], [⟨0, 0⟩], 3, fun _ => [0, 0, 0]⟩ :
        BaseTopology ℚ))
      (fun _ => ⟨[⟨1, 0, 0⟩], [⟨0, 0⟩], 3, fun _ => [0, 0, 0]⟩)
      (fun _ => 0) NoisySphereMeshBuilder.default).indices.length = 12 * 3 := by
  have h := (sphere_index_assembly
    (fun _ => (⟨[⟨1, 0, 0⟩], [⟨0, 0⟩], 3, fun _ => [0, 0, 0]⟩ :
      BaseTopology ℚ))
    (fun _ => ⟨[⟨1, 0, 0⟩], [⟨0, 0⟩], 3, fun _ => [0, 0, 0]⟩)
    (fun _ => 0) NoisySphereMeshBuilder.default
    (fun i _ => rfl)
    (fun i _ j hj => by
      show j < 1
      have hj' : j ∈ ([0, 0, 0] : List Nat) := hj
      simp only [List.mem_cons, List.not_mem_nil, or_false] at hj'
      omega)).2.2.1
  exact h

/-- C7: two sphere configurations differing only in the offset use the same
base topology (hence identical raw point lists), and build identical index
and UV buffers. -/
theorem sphere_offset_invariance (mkCube mkIco : Nat → BaseTopology α)
    (len3 : Vec3 α → α) (b : NoisySphereMeshBuilder α) (o : Vec3 α) :
    (sphereBase mkCube mkIco
        ({ b with offset := o } : NoisySphereMeshBuilder α).kind).raw_points =
      (sphereBase mkCube mkIco b.kind).raw_points ∧
    (sphereBuild mkCube mkIco len3 { b with offset := o }).indices =
      (sphereBuild mkCube mkIco len3 b).indices ∧
    (sphereBuild mkCube mkIco len3 { b with offset := o }).uvs =
      (sphereBuild mkCube mkIco len3 b).uvs :=
  ⟨rfl, rfl, rfl⟩

/-- C10: obtaining a builder from a shape via mesh() keeps only the shape's
fields and resets the rest to defaults (sampler None, zero offset, no
vertex colors, plane subdivisions 0, sphere kind Cubed{5}); the resulting
direct shape-to-mesh conversion is uncolored and undisplaced (the plane's
py is identically 0, the sphere's positions are exactly radius-scaled raw
points). -/
theorem shape_mesh_defaults (p : NoisyPlane3d α) (s : NoisySphere α)
    (rotArc : Vec3 α → Vec3 α → Vec3 α → Vec3 α)
    (mkCube mkIco : Nat → BaseTopology α) (len3 : Vec3 α → α) :
    NoisyPlane3d.mesh p =
      (⟨p, 0, .None, ⟨0, 0⟩, false⟩ : NoisyPlaneMeshBuilder α) ∧
    NoisySphere.mesh s =
      (⟨.Cubed 5, .None, s, ⟨0, 0, 0⟩, false⟩ : NoisySphereMeshBuilder α) ∧
    (planeBuild rotArc (NoisyPlane3d.mesh p)).colors = none ∧
    (sphereBuild mkCube mkIco len3 (NoisySphere.mesh s)).colors = none ∧
    (∀ z x, planePy (NoisyPlane3d.mesh p) z x = 0) ∧
    (planeBuild rotArc (NoisyPlane3d.mesh p)).positions =
      ((List.range 2).flatMap fun z => (List.range 2).map fun x =>
        rotArc ⟨0, 1, 0⟩ p.normal
          ⟨(-(1 / 2) + planeT 2 x) * (p.half_size.x * 2), 0,
           (-(1 / 2) + planeT 2 z) * (p.half_size.y * 2)⟩) ∧
    (sphereBuild mkCube mkIco len3 (NoisySphere.mesh s)).positions =
      (mkCube 5).raw_points.map fun q =>
        ⟨q.x * s.radius, q.y * s.radius, q.z * s.radius⟩ := by
  refine ⟨rfl, rfl, rfl, rfl, fun z x => rfl, rfl, ?_⟩
  rw [sphereBuild_eq, sphereMesh_positions]
  refine List.map_congr_left fun q _ => ?_
  simp [NoisySphere.mesh, NoisySphereMeshBuilder.default,
    NoisySphereKind.default, NoisySphere.default, sample_at,
    NoiseSampler.sample3d]

/-- A plane configuration whose sampler constantly returns -1/2, with
vertex colors enabled: it makes the build's hue negative. -/
def cexPlaneBuilder : NoisyPlaneMeshBuilder ℚ :=
  ⟨NoisyPlane3d.default, 0,
    .Fractal (fun _ _ => -(1 / 2)) (fun _ => 0), ⟨0, 0⟩, true⟩

/-- C5 is false as stated: with a sampler returning -1/2 every plane vertex
has py = -1/2, and the hue (py * 360) % 360 computed with Rust's remainder
is -180, which does not lie in [0, 360). -/
theorem plane_hue_counterexample :
    (planeBuild (fun _ _ v => v) cexPlaneBuilder).colors =
      some [-180, -180, -180, -180] ∧
    ¬ (0 ≤ (-180 : ℚ) ∧ (-180 : ℚ) < 360) := by
  constructor
  · have hz : ∀ z x : Nat,
        rustRem (planePy cexPlaneBuilder z x * 360) 360 = (-180 : ℚ) := by
      intro z x
      have hpy : planePy cexPlaneBuilder z x = -(1 / 2 : ℚ) := rfl
      rw [hpy]
      unfold rustRem
      rw [if_neg (by norm_num)]
      have hc : ⌈(-(1 / 2 : ℚ) * 360) / 360⌉ = 0 := by norm_num
      rw [hc]
      norm_num
    rw [planeBuild_colors]
    have hv : cexPlaneBuilder.vertex_colors = true := rfl
    rw [hv]
    simp only [if_true]
    have hsub : cexPlaneBuilder.subdivisions = 0 := rfl
    simp [hsub, List.range_succ, hz]
  · norm_num

/-- C5 (amended): when the vertex-color toggle is off neither build has a
color array; when it is on the color array has the same length as the
position array, and each hue lies in the open interval (-360, 360) — the
Rust remainder keeps the dividend's sign, so the plane's hue is negative
when py < 0, while the sphere's hue lies in [0, 360) because the sampled
length is nonnegative. -/
theorem vertex_color_arrays (rotArc : Vec3 α → Vec3 α → Vec3 α → Vec3 α)
    (b : NoisyPlaneMeshBuilder α) (mkCube mkIco : Nat → BaseTopology α)
    (len3 : Vec3 α → α) (sb : NoisySphereMeshBuilder α)
    (hlen3 : ∀ v, 0 ≤ len3 v) :
    (b.vertex_colors = false → (planeBuild rotArc b).colors = none) ∧
    (sb.vertex_colors = false →
      (sphereBuild mkCube mkIco len3 sb).colors = none) ∧
    (b.vertex_colors = true → ∃ hs,
      (planeBuild rotArc b).colors = some hs ∧
      hs.length = (planeBuild rotArc b).positions.length ∧
      ∀ u ∈ hs, -360 < u ∧ u < 360) ∧
    (sb.vertex_colors = true → ∃ hs,
      (sphereBuild mkCube mkIco len3 sb).colors = some hs ∧
      hs.length = (sphereBuild mkCube mkIco len3 sb).positions.length ∧
      ∀ u ∈ hs, 0 ≤ u ∧ u < 360) := by
  refine ⟨?_, ?_, ?_, ?_⟩
  · intro h
    rw [planeBuild_colors, h]
    simp
  · intro h
    rw [sphereBuild_eq, sphereMesh_colors, h]
    simp
  · intro h
    have hcol : (planeBuild rotArc b).colors =
        some ((List.range (b.subdivisions + 2)).flatMap fun z =>
          (List.range (b.subdivisions + 2)).map fun x =>
            rustRem (planePy b z x * 360) 360) := by
      rw [planeBuild_colors, h]
      simp
    refine ⟨_, hcol, ?_, ?_⟩
    · rw [planeBuild_positions,
        length_flatMap_range _ (b.subdivisions + 2) (b.subdivisions + 2)
          (fun a _ => by simp),
        length_flatMap_range _ (b.subdivisions + 2) (b.subdivisions + 2)
          (fun a _ => by simp)]
    · intro u hu
      obtain ⟨z, hz, hu⟩ := mem_flatMap_range _ _ _ hu
      obtain ⟨x, hx, rfl⟩ := List.mem_map.mp hu
      have hb := rustRem_bounds (planePy b z x * 360) 360 (by norm_num)
      exact ⟨hb.1, hb.2⟩
  · intro h
    have hcol : (sphereBuild mkCube mkIco len3 sb).colors =
        some (((sphereBase mkCube mkIco sb.kind).raw_points.map fun p =>
          sample_at p sb.sampler sb.offset sb.sphere.radius).map fun p =>
            rustRem (len3 p * 360) 360) := by
      rw [sphereBuild_eq, sphereMesh_colors, h]
      simp
    refine ⟨_, hcol, ?_, ?_⟩
    · rw [sphereBuild_eq, sphereMesh_positions, List.length_map,
        List.length_map]
    · intro u hu
      obtain ⟨q, hq, rfl⟩ := List.mem_map.mp hu
      have ha : (0 : α) ≤ len3 q * 360 :=
        mul_nonneg (hlen3 q) (by norm_num)
      exact ⟨rustRem_nonneg _ 360 ha (by norm_num),
        (rustRem_bounds (len3 q * 360) 360 (by norm_num)).2⟩

/-- Witness for the amended C5: with the toggle off, both default builds
over ℚ carry no color array. -/
theorem vertex_color_arrays_witness :
    (planeBuild (fun _ _ v => v)
      (NoisyPlaneMeshBuilder.default : NoisyPlaneMeshBuilder ℚ)).colors =
        none ∧
    (sphereBuild (fun _ => (⟨[], [], 3, fun _ => []⟩ : BaseTopology ℚ))
      (fun _ => ⟨[], [], 3, fun _ => []⟩) (fun _ => 0)
      NoisySphereMeshBuilder.default).colors = none :=
  ⟨(vertex_color_arrays (fun _ _ v => v) NoisyPlaneMeshBuilder.default
      (fun _ => ⟨[], [], 3, fun _ => []⟩) (fun _ => ⟨[], [], 3, fun _ => []⟩)
      (fun _ => 0) NoisySphereMeshBuilder.default fun _ => le_rfl).1 rfl,
   (vertex_color_arrays (fun _ _ v => v) NoisyPlaneMeshBuilder.default
      (fun _ => ⟨[], [], 3, fun _ => []⟩) (fun _ => ⟨[], [], 3, fun _ => []⟩)
      (fun _ => 0) NoisySphereMeshBuilder.default fun _ => le_rfl).2.1 rfl⟩

end NoisyShapes
